import Mathlib

/-!  Verification of the sparse multi-order k-mer statistics engine of
`ksiga` (file `src/ksiga/fsig.py`).  The estimators are shallowly embedded
over exact arithmetic (`ℚ`/`ℤ`); external collaborators (the HDF5-backed
signature store, scipy's interpolator, numpy's transcendental primitives)
enter as explicit parameters or spec-modelled definitions, each marked in
its doc comment.  -/

namespace Ksiga

set_option maxRecDepth 8000

/-- A genome signature as exposed by the external Signature Store
(`KmerSignature.get_sparse_array(ksize).indices`): for each k-mer length it
yields the list of nonzero k-mer keys of that genome's sparse count vector.
Modelled from the spec: the `ksignature` module is not part of the core
sources; §6 specifies `get_sparse_vector(k)` as returning the nonzero
entries of one genome at order k.  Only the keys matter to the
common-feature and diversity estimators (counts are clipped to one). -/
def Store : Type := ℕ → List ℕ

/-- Modelled from the spec: `rebuild_matrix(file_list, k)` (§6, implemented
by the external `ksignature.rebuild_sparse_matrix`) stacks the N input
genomes' sparse vectors at order k as rows of an N-row matrix; row i holds
the nonzero keys of input file i. -/
def rebuild_sparse_matrix (stores : List Store) (ksize : ℕ) : List (List ℕ) :=
  stores.map (fun s => s ksize)

/-- Dot product of two rows of the stacked presence matrix after
`csr_matrix.data = np.ones(...)` (fsig.py line 226): every stored count is
replaced by 1, so row a · row b is the number of keys present in both rows
(keys are unique within one vector, §3). -/
def rowDot (a b : List ℕ) : ℕ := (a.toFinset ∩ b.toFinset).card

/-- fsig.py lines 206–235, `calculate_average_common_feature`: build the
stacked matrix, convert counts to ones, and for each row i compute the dot
product of the whole matrix with row i, zero the self term, sum, and divide
by N−1. -/
def calculate_average_common_feature (stores : List Store) (ksize : ℕ) : List ℚ :=
  let csr := rebuild_sparse_matrix stores ksize
  let rowNum := csr.length
  let norm : ℚ := (rowNum : ℚ) - 1
  (List.range rowNum).map (fun i =>
    let val := ((List.range rowNum).map (fun j =>
      if j = i then 0 else rowDot (csr.getD j []) (csr.getD i []))).sum
    ((val : ℚ) / norm))

/-- Python-dict assignment `memoize[(i, j)] = val`: replace the value when
the key is present, otherwise append the binding (insertion order kept). -/
def dictInsert (m : List ((ℕ × ℕ) × ℕ)) (k : ℕ × ℕ) (v : ℕ) :
    List ((ℕ × ℕ) × ℕ) :=
  if (m.lookup k).isSome then m.map (fun p => if p.1 = k then (k, v) else p)
  else m ++ [(k, v)]

/-- State threaded through the loops of
`lowmem_calculate_average_common_feature` (fsig.py lines 238–271): the
per-call memoization dictionary, the number of times the source line
`val = len(set(mi.indices).intersection(mj.indices))` has been evaluated
(an instrumentation of the embedded loop body, recorded to reason about
recomputation), and the accumulated per-genome values. -/
structure LowmemState where
  memo : List ((ℕ × ℕ) × ℕ)
  interCount : ℕ
  vals : List ℕ

/-- One iteration of the outer loop of
`lowmem_calculate_average_common_feature` (fsig.py lines 251–269): for a
fixed i, fold the inner loop over j.  Faithful to the source, including its
two slips: the value fetched from the memo when j < i is immediately
overwritten by a fresh computation, and both operands load `stores[i]`
(source lines 259–260 read `fi = stores[i]; fj = stores[i]`). -/
def lowmem_row (stores : List Store) (ksize i : ℕ) (st : LowmemState) :
    LowmemState × ℕ :=
  (List.range stores.length).foldl (fun acc j =>
    let st := acc.1
    let rowVal := acc.2
    if i = j then (st, rowVal)
    else
      let _fetched : Option ℕ := if j < i then st.memo.lookup (j, i) else none
      let fi := stores.getD i (fun _ => [])
      let fj := stores.getD i (fun _ => [])
      let mi := fi ksize
      let mj := fj ksize
      let val := (mi.toFinset ∩ mj.toFinset).card
      (⟨dictInsert st.memo (i, j) val, st.interCount + 1, st.vals⟩,
       rowVal + val))
    (st, 0)

/-- The two nested loops of `lowmem_calculate_average_common_feature`,
returning the final state (memo table, intersection-computation count, and
per-genome sums). -/
def lowmem_run (stores : List Store) (ksize : ℕ) : LowmemState :=
  (List.range stores.length).foldl (fun st i =>
    let res := lowmem_row stores ksize i st
    ⟨res.1.memo, res.1.interCount, res.1.vals ++ [res.2]⟩)
    ⟨[], 0, []⟩

/-- fsig.py lines 238–271, `lowmem_calculate_average_common_feature`: the
streaming common-feature estimator; per-genome sums divided by N−1. -/
def lowmem_calculate_average_common_feature (stores : List Store) (ksize : ℕ) :
    List ℚ :=
  let norm : ℚ := (stores.length : ℚ) - 1
  (lowmem_run stores ksize).vals.map (fun v => (v : ℚ) / norm)

/-- fsig.py lines 273–281, `pair_calculate_average_common_feature`: the
shared-key count of exactly one pair of signature files. -/
def pair_calculate_average_common_feature (store1 store2 : Store) (ksize : ℕ) :
    ℕ :=
  let mi := store1 ksize
  let mj := store2 ksize
  (mi.toFinset ∩ mj.toFinset).card

/-- A concrete signature whose sparse vector at every order has the single
key 0. -/
def storeA : Store := fun _ => [0]

/-- A concrete signature whose sparse vector at every order has the single
key 1. -/
def storeB : Store := fun _ => [1]

/-- Claim C10: `pair_calculate_average_common_feature` is symmetric in its
two signature-file arguments: swapping `store1` and `store2` yields the
same shared-key count, for every pair of signatures and every k. -/
theorem pair_acf_symmetric (store1 store2 : Store) (ksize : ℕ) :
    pair_calculate_average_common_feature store1 store2 ksize =
      pair_calculate_average_common_feature store2 store1 ksize := by
  unfold pair_calculate_average_common_feature
  simp [Finset.inter_comm]

/-- Claim C1 (code bug): on the two-genome collection with key sets {0} and
{1}, the batch estimator and the pairwise mode report 0 shared keys, but
the streaming estimator reports [1, 1]: its inner loop loads `stores[i]`
for both operands (source line 260, `fj = stores[i]`), so each "pairwise"
value is the self-intersection |keys(i)| and the three modes disagree. -/
theorem acf_modes_disagree :
    calculate_average_common_feature [storeA, storeB] 3 = [0, 0] ∧
    lowmem_calculate_average_common_feature [storeA, storeB] 3 = [1, 1] ∧
    pair_calculate_average_common_feature storeA storeB 3 = 0 := by
  have hrun : (lowmem_run [storeA, storeB] 3).vals = [1, 1] := by decide
  refine ⟨?_, ?_, by decide⟩
  · norm_num [calculate_average_common_feature, rebuild_sparse_matrix, rowDot,
      storeA, storeB, List.range_succ]
  · norm_num [lowmem_calculate_average_common_feature, hrun]

/-- Claim C4 (code bug): on a two-genome collection the streaming
estimator's loop evaluates the set intersection once per ordered pair —
twice for the single unordered pair {0, 1}, because the value fetched from
the memo at (i, j) = (1, 0) is immediately overwritten — and its memo table
ends up keyed by both (0, 1) and (1, 0), not only by pairs with i < j. -/
theorem lowmem_memo_not_used :
    (lowmem_run [storeA, storeB] 3).interCount = 2 ∧
    (lowmem_run [storeA, storeB] 3).memo.map Prod.fst = [(0, 1), (1, 0)] := by
  refine ⟨?_, ?_⟩ <;> decide

/-- np.cumsum with a running accumulator (helper for the embedding of
`np.cumsum(relEntropies)` in fsig.py line 394). -/
def cumsumFrom (acc : ℚ) : List ℚ → List ℚ
  | [] => []
  | x :: t => (acc + x) :: cumsumFrom (acc + x) t

/-- np.cumsum: partial sums of a list, same length as the input. -/
def cumsum (l : List ℚ) : List ℚ := cumsumFrom 0 l

/-- fsig.py lines 390–395 of `calculate_cre_kmer`: clip the per-k relative
entropies below at zero (`np.clip(relEntropies, 0, np.inf)`), take the
total as the maximum value, subtract the running cumulative sum, and insert
the maximum at the front. -/
def cre_series (relEntropies : List ℚ) : List ℚ :=
  let clipped := relEntropies.map (fun r => max r 0)
  let maximumVal := clipped.sum
  maximumVal :: (cumsum clipped).map (fun c => maximumVal - c)

theorem chain_le_cumsumFrom (l : List ℚ) (h : ∀ x ∈ l, 0 ≤ x) :
    ∀ acc : ℚ, List.Chain' (· ≤ ·) (acc :: cumsumFrom acc l) := by
  induction l with
  | nil => intro acc; simp [cumsumFrom]
  | cons x t ih =>
    intro acc
    have hx : 0 ≤ x := h x (by simp)
    have ht : ∀ y ∈ t, 0 ≤ y := fun y hy => h y (by simp [hy])
    have := ih ht (acc + x)
    exact List.Chain'.cons (by linarith) this

/-- Claim C7: for every sequence of per-k relative-entropy scalars, the CRE
series produced by `calculate_cre_kmer` — per-k contributions clipped below
at zero, cumulated, subtracted from the total, with the total prepended —
is monotonically non-increasing in k. -/
theorem cre_series_nonincreasing (relEntropies : List ℚ) :
    List.Chain' (fun a b => b ≤ a) (cre_series relEntropies) := by
  unfold cre_series
  set clipped := relEntropies.map (fun r => max r 0) with hcl
  set S := clipped.sum with hS
  have hnn : ∀ x ∈ clipped, 0 ≤ x := by
    intro x hx
    rw [hcl] at hx
    obtain ⟨r, -, rfl⟩ := List.mem_map.mp hx
    exact le_max_right r 0
  have hchain := chain_le_cumsumFrom clipped hnn 0
  have hrw : S :: (cumsum clipped).map (fun c => S - c) =
      ((0 : ℚ) :: cumsum clipped).map (fun c => S - c) := by
    simp
  rw [hrw, List.chain'_map]
  exact hchain.imp fun a b hab => by simpa using sub_le_sub_left hab S

/-- fsig.py lines 311–313, `binning`: split a list into consecutive chunks
of `binsize` elements (Python `lst[i:i+binsize]` for i = 0, binsize, …; the
step of `range` must be positive there, so `binsize = 0` is outside the
source's domain and is mapped to the empty result). -/
def binning (lst : List α) (binsize : ℕ) : List (List α) :=
  if h : lst.length = 0 ∨ binsize = 0 then []
  else lst.take binsize :: binning (lst.drop binsize) binsize
termination_by lst.length
decreasing_by
  push_neg at h
  have h2 : 0 < binsize := Nat.pos_of_ne_zero h.2
  simpa [List.length_drop] using Nat.sub_lt (Nat.pos_of_ne_zero h.1) h2

theorem binning_flatten (lst : List α) (binsize : ℕ) (hb : binsize ≠ 0) :
    (binning lst binsize).flatten = lst := by
  revert hb
  induction lst, binsize using binning.induct with
  | case1 lst binsize h =>
    intro hb
    rcases h with h | h
    · rw [binning.eq_def, dif_pos (Or.inl h)]
      simpa using (List.length_eq_zero.mp h).symm
    · exact absurd h hb
  | case2 lst binsize h ih =>
    intro hb
    rw [binning.eq_def, dif_neg h]
    simp [ih hb]

theorem sum_over_bins (f : α → ℚ) (l : List α) (n : ℕ) (hn : n ≠ 0) :
    ((binning l n).map (fun bin => (bin.map f).sum)).sum = (l.map f).sum := by
  have h1 : ((binning l n).map (fun bin => (bin.map f).sum)).sum
      = (((binning l n).map (List.map f)).map List.sum).sum := by
    rw [List.map_map]
    rfl
  rw [h1, ← List.sum_flatten, ← List.map_flatten, binning_flatten l n hn]

/-- getnnz(axis=1) on the stacked sparse matrix: the number of stored
entries in each row. -/
def getnnz_rows (M : List (List ℕ)) : List ℕ := M.map List.length

/-- fsig.py lines 284–293, `calculate_ofc_shannon`: per-genome density of
observed features over the 4^k key space, combined into a Shannon-style
scalar.  `L` stands for numpy's natural-log primitive `np.log`, an external
numeric collaborator the estimator is parametric in. -/
def calculate_ofc_shannon (L : ℚ → ℚ) (stores : List Store) (ksize : ℕ) : ℚ :=
  let spmatrix := rebuild_sparse_matrix stores ksize
  let allPossibleFeatures : ℚ := ((4 ^ ksize : ℕ) : ℚ)
  let eachGenomeFeatures := getnnz_rows spmatrix
  let prob := eachGenomeFeatures.map (fun n : ℕ => (n : ℚ) / allPossibleFeatures)
  ((prob.map (fun p => p * L p)).sum) * (-1)

/-- fsig.py lines 295–308, `lowmem_calculate_ofc_shannon`: process the file
list in chunks (`binning`, default size 50 in the source; the chunk size is
kept as a parameter here), rebuild a sub-matrix per chunk, and accumulate
each chunk's partial Shannon sum. -/
def lowmem_calculate_ofc_shannon (L : ℚ → ℚ) (stores : List Store)
    (ksize binsize : ℕ) : ℚ :=
  let allPossibleFeatures : ℚ := ((4 ^ ksize : ℕ) : ℚ)
  ((binning stores binsize).map (fun storebin =>
    let binSp := rebuild_sparse_matrix storebin ksize
    let eachGenomeFeatures := getnnz_rows binSp
    let binProb := eachGenomeFeatures.map (fun n : ℕ => (n : ℚ) / allPossibleFeatures)
    ((binProb.map (fun p => p * L p)).sum) * (-1))).sum

/-- The per-genome contribution to the Shannon diversity scalar:
p·log(p) for p = (number of stored keys)/4^k. -/
def shannonTerm (L : ℚ → ℚ) (ksize : ℕ) (s : Store) : ℚ :=
  (((s ksize).length : ℚ) / ((4 ^ ksize : ℕ) : ℚ)) *
    L (((s ksize).length : ℚ) / ((4 ^ ksize : ℕ) : ℚ))

theorem batch_shannon_sum (L : ℚ → ℚ) (stores : List Store) (ksize : ℕ) :
    calculate_ofc_shannon L stores ksize =
      (stores.map (shannonTerm L ksize)).sum * (-1) := by
  simp only [calculate_ofc_shannon, rebuild_sparse_matrix, getnnz_rows, List.map_map]
  rfl

/-- Claim C8: for every genome collection, every k, and every positive bin
size, the binned/streaming Shannon diversity estimator equals the batch
estimator exactly: the two compute the same per-genome terms, summed in a
different association, so over exact arithmetic the totals coincide (the
"equal up to floating-point summation order" contract). -/
theorem shannon_binned_eq_batch (L : ℚ → ℚ) (stores : List Store)
    (ksize binsize : ℕ) (hb : 0 < binsize) :
    lowmem_calculate_ofc_shannon L stores ksize binsize =
      calculate_ofc_shannon L stores ksize := by
  have hlow : lowmem_calculate_ofc_shannon L stores ksize binsize =
      ((binning stores binsize).map
        (fun bin => calculate_ofc_shannon L bin ksize)).sum := rfl
  rw [hlow, batch_shannon_sum]
  calc ((binning stores binsize).map
        (fun bin => calculate_ofc_shannon L bin ksize)).sum
      = ((binning stores binsize).map
          (fun bin => (bin.map (shannonTerm L ksize)).sum * (-1))).sum := by
        simp only [batch_shannon_sum]
    _ = ((binning stores binsize).map
          (fun bin => (bin.map (shannonTerm L ksize)).sum)).sum * (-1) := by
        rw [← List.sum_map_mul_right]
    _ = (stores.map (shannonTerm L ksize)).sum * (-1) := by
        rw [sum_over_bins (shannonTerm L ksize) stores binsize
          (Nat.pos_iff_ne_zero.mp hb)]

/-- Claim C8 witness: the equivalence applied to a concrete one-genome
collection with bin size 1 (and the zero function in place of the log
primitive). -/
theorem shannon_binned_eq_batch_witness :
    0 < 1 ∧
      lowmem_calculate_ofc_shannon (fun _ => 0) [storeA] 1 1 =
        calculate_ofc_shannon (fun _ => 0) [storeA] 1 :=
  ⟨Nat.one_pos, shannon_binned_eq_batch (fun _ => 0) [storeA] 1 1 Nat.one_pos⟩

/-- Errors raised by the curve selector `_find_yintercept` (fsig.py lines
455–471): the NotImplementedError of the range check ("Calculate the k-mer
beyond index is not implemented yet."), and the IndexError raised by
`idx[0]` when the resampled curve has no sign change against the cutoff. -/
inductive YErr where
  | notImplemented
  | indexError
deriving DecidableEq

/-- np.sign over exact rationals. -/
def npsign (q : ℚ) : ℤ := if q < 0 then -1 else if q = 0 then 0 else 1

/-- np.linspace(a, b, num): num evenly spaced samples from a to b
inclusive. -/
def linspace (a b : ℚ) (num : ℕ) : List ℚ :=
  (List.range num).map (fun i : ℕ => a + (b - a) * (i : ℚ) / ((num : ℚ) - 1))

/-- fsig.py line 468, `np.argwhere(np.diff(np.sign(yn - cutoff)) !=
0).reshape(-1)`: the indices at which consecutive signs of (vals − cutoff)
differ. -/
def sign_change_indices (vals : List ℚ) (cutoff : ℚ) : List ℕ :=
  let s := vals.map (fun v => npsign (v - cutoff))
  let d := List.zipWith (fun a b => b - a) s s.tail
  (d.enum.filter (fun p => p.2 != 0)).map Prod.fst

/-- fsig.py lines 455–471, `_find_yintercept`: cutoff = max(y)/percent;
fail when min(y) is above the cutoff; otherwise resample the interpolated
curve on 500 uniform points of [x[0], x[-1]] and return the x-coordinate of
the first sign change (`idx[0]` raises IndexError when there is none).
`fi` stands for the interpolant returned by the external
`scipy.interpolate.interp1d(x, y, kind="cubic")`, which the selector is
parametric in. -/
def find_yintercept (fi : ℚ → ℚ) (x y : List ℚ) (percent : ℚ) : Except YErr ℚ :=
  let cutoff := (y.max?.getD 0) / percent
  if (y.min?.getD 0) > cutoff then .error .notImplemented
  else
    let xn := linspace (x.headD 0) (x.getLastD 0) 500
    let yn := xn.map fi
    match sign_change_indices yn cutoff with
    | [] => .error .indexError
    | i :: _ => .ok (xn.getD i 0)

theorem linspace_mem (a b : ℚ) (num : ℕ) (hab : a ≤ b) :
    ∀ v ∈ linspace a b num, a ≤ v ∧ v ≤ b := by
  intro v hv
  obtain ⟨i, hi, rfl⟩ := List.mem_map.mp hv
  have hi' : i < num := List.mem_range.mp hi
  rcases le_or_lt ((num : ℚ) - 1) 0 with h0 | h0
  · have h1 : (num : ℚ) ≤ 1 := by linarith
    have h2 : num ≤ 1 := by exact_mod_cast h1
    have h3 : i = 0 := by omega
    subst h3
    simp only [Nat.cast_zero, mul_zero, zero_div, add_zero]
    exact ⟨le_refl a, hab⟩
  · have hi2 : (i : ℚ) ≤ (num : ℚ) - 1 := by
      have : (i : ℚ) + 1 ≤ (num : ℚ) := by exact_mod_cast Nat.succ_le_of_lt hi'
      linarith
    have ht0 : 0 ≤ (b - a) * (i : ℚ) / ((num : ℚ) - 1) :=
      div_nonneg (mul_nonneg (by linarith) (by positivity)) (le_of_lt h0)
    have ht1 : (b - a) * (i : ℚ) / ((num : ℚ) - 1) ≤ b - a := by
      rw [div_le_iff₀ h0]
      exact mul_le_mul_of_nonneg_left hi2 (by linarith)
    constructor <;> linarith

theorem sign_change_indices_lt (vals : List ℚ) (cutoff : ℚ) :
    ∀ i ∈ sign_change_indices vals cutoff, i < vals.length := by
  intro i hi
  unfold sign_change_indices at hi
  obtain ⟨⟨j, z⟩, hmem, rfl⟩ := List.mem_map.mp hi
  have hmem' := List.mem_filter.mp hmem
  have hget := List.mem_enum_iff_getElem?.mp hmem'.1
  have hlt : j < (List.zipWith (fun a b => b - a)
      (vals.map (fun v => npsign (v - cutoff)))
      (vals.map (fun v => npsign (v - cutoff))).tail).length :=
    (List.getElem?_eq_some.mp hget).1
  simp only [List.length_zipWith, List.length_map, List.length_tail] at hlt
  omega

/-- The range property the curve selector guarantees of a successful
result: an `ok` value lies between the given bounds; an error imposes
nothing. -/
def okInRange (lo hi : ℚ) : Except YErr ℚ → Prop
  | .ok v => lo ≤ v ∧ v ≤ hi
  | .error _ => True

/-- Claim C3 (amended): for every series (x, y) and positive percent, the
selector `_find_yintercept` fails with the range-exhausted
(not-yet-supported) error when min(y) > max(y)/percent; otherwise, *when it
returns a value at all*, that value lies within [x[0], x[-1]] (= [min x,
max x] for the increasing k-ranges the callers pass).  The original claim's
assertion that a value is always returned in the non-error case fails: when
the resampled curve never crosses the cutoff (e.g. percent < 1 puts the
cutoff above the whole curve) the source raises IndexError at `idx[0]`
instead of returning. -/
theorem find_yintercept_range_check (fi : ℚ → ℚ) (x y : List ℚ) (percent : ℚ)
    (hx : x.headD 0 ≤ x.getLastD 0) :
    ((y.min?.getD 0) > (y.max?.getD 0) / percent →
      find_yintercept fi x y percent = .error .notImplemented) ∧
    okInRange (x.headD 0) (x.getLastD 0) (find_yintercept fi x y percent) := by
  simp only [find_yintercept]
  split_ifs with hcond
  · exact ⟨fun _ => rfl, trivial⟩
  · refine ⟨fun h => absurd h hcond, ?_⟩
    cases hidx : sign_change_indices
        ((linspace (x.headD 0) (x.getLastD 0) 500).map fi)
        ((y.max?.getD 0) / percent) with
    | nil => exact trivial
    | cons i rest =>
      have hi : i < ((linspace (x.headD 0) (x.getLastD 0) 500).map fi).length :=
        sign_change_indices_lt _ _ i (hidx ▸ List.mem_cons_self i rest)
      rw [List.length_map] at hi
      have hmem : (linspace (x.headD 0) (x.getLastD 0) 500).getD i 0 ∈
          linspace (x.headD 0) (x.getLastD 0) 500 := by
        rw [List.getD_eq_getElem _ _ hi]
        exact List.getElem_mem hi
      exact linspace_mem _ _ _ hx _ hmem

/-- Claim C3 witness: the amended selector property applied to the concrete
series x = y = [0, 1, 2, 3] with percent 2 and the identity interpolant
(the data are collinear, so the cubic interpolant is the line y = x). -/
theorem find_yintercept_range_check_witness :
    (([0, 1, 2, 3] : List ℚ).headD 0 ≤ ([0, 1, 2, 3] : List ℚ).getLastD 0) ∧
    (((([0, 1, 2, 3] : List ℚ).min?.getD 0) >
        (([0, 1, 2, 3] : List ℚ).max?.getD 0) / 2 →
      find_yintercept id [0, 1, 2, 3] [0, 1, 2, 3] 2 = .error .notImplemented) ∧
    okInRange (([0, 1, 2, 3] : List ℚ).headD 0)
      (([0, 1, 2, 3] : List ℚ).getLastD 0)
      (find_yintercept id [0, 1, 2, 3] [0, 1, 2, 3] 2)) :=
  ⟨by norm_num,
   find_yintercept_range_check id [0, 1, 2, 3] [0, 1, 2, 3] 2 (by norm_num)⟩

theorem zipWith_sub_self_tail (k : ℤ) :
    ∀ s : List ℤ, (∀ a ∈ s, a = k) →
      List.zipWith (fun a b => b - a) s s.tail = List.replicate (s.length - 1) 0 := by
  intro s
  induction s with
  | nil => intro _; rfl
  | cons a t ih =>
    intro h
    cases t with
    | nil => rfl
    | cons b t' =>
      have ha : a = k := h a (by simp)
      have hb : b = k := h b (by simp)
      have hrest : ∀ z ∈ b :: t', z = k := fun z hz => h z (by simp [hz])
      show (b - a) :: List.zipWith (fun a b => b - a) (b :: t') t' = _
      have := ih hrest
      simp only [List.tail_cons] at this
      rw [this]
      simp [ha, hb, List.replicate_succ]

theorem filter_enumFrom_zero (p : ℕ × ℤ → Bool) (hp : ∀ n : ℕ, p (n, 0) = false) :
    ∀ (d : List ℤ) (n : ℕ), (∀ z ∈ d, z = 0) →
      (d.enumFrom n).filter p = [] := by
  intro d
  induction d with
  | nil => intro n _; rfl
  | cons z t ih =>
    intro n h
    have hz : z = 0 := h z (by simp)
    subst hz
    show List.filter p ((n, 0) :: t.enumFrom (n + 1)) = []
    rw [List.filter_cons_of_neg (by simp [hp n])]
    exact ih (n + 1) (fun w hw => h w (by simp [hw]))

theorem sign_change_indices_nil (vals : List ℚ) (cutoff : ℚ)
    (h : ∀ v ∈ vals, v < cutoff) : sign_change_indices vals cutoff = [] := by
  simp only [sign_change_indices]
  have hall : ∀ a ∈ vals.map (fun v => npsign (v - cutoff)), a = -1 := by
    intro a ha
    obtain ⟨v, hv, rfl⟩ := List.mem_map.mp ha
    simp [npsign, sub_neg.mpr (h v hv)]
  rw [zipWith_sub_self_tail (-1) _ hall]
  rw [show List.enum (List.replicate ((vals.map fun v => npsign (v - cutoff)).length - 1) (0 : ℤ)) =
    List.enumFrom 0 (List.replicate ((vals.map fun v => npsign (v - cutoff)).length - 1) (0 : ℤ)) from rfl]
  rw [filter_enumFrom_zero _ (by intro n; simp) _ 0
    (by intro z hz; exact List.eq_of_mem_replicate hz)]
  rfl

/-- Claim C3 counterexample: for the collinear series x = y = [0, 1, 2, 3]
(whose cubic interpolant is the identity line) and the positive percent
1/2, the range check passes (min y = 0 is not above cutoff = 6), yet the
selector does not return an x-coordinate: the resampled curve stays below
the cutoff, no sign change exists, and `idx[0]` raises IndexError — so
"otherwise returns an x within [min x, max x]" is false as stated. -/
theorem find_yintercept_claim_counterexample :
    find_yintercept id [0, 1, 2, 3] ([0, 1, 2, 3] : List ℚ) (1 / 2) =
      .error .indexError := by
  have hmax : (([0, 1, 2, 3] : List ℚ).max?.getD 0) = 3 := rfl
  have hmin : (([0, 1, 2, 3] : List ℚ).min?.getD 0) = 0 := rfl
  have hcut : (([0, 1, 2, 3] : List ℚ).max?.getD 0) / (1 / 2 : ℚ) = 6 := by
    rw [hmax]; norm_num
  simp only [find_yintercept]
  rw [if_neg (by rw [hmin, hcut]; norm_num)]
  have hnil : sign_change_indices
      ((linspace (([0, 1, 2, 3] : List ℚ).headD 0)
        (([0, 1, 2, 3] : List ℚ).getLastD 0) 500).map id)
      ((([0, 1, 2, 3] : List ℚ).max?.getD 0) / (1 / 2 : ℚ)) = [] := by
    apply sign_change_indices_nil
    intro v hv
    rw [List.map_id] at hv
    have hb := linspace_mem _ _ 500
      (by norm_num : (([0, 1, 2, 3] : List ℚ).headD 0) ≤
        (([0, 1, 2, 3] : List ℚ).getLastD 0)) v hv
    rw [hcut]
    have h3 : (([0, 1, 2, 3] : List ℚ).getLastD 0) = 3 := rfl
    rw [h3] at hb
    linarith [hb.2]
  rw [hnil]

/-- The cubic interpolant of scenario C's collinear series y = [100, 80,
60, 40, 20] over x = [3, 4, 5, 6, 7]: the data lie on the line
y = 160 − 20·x, which every polynomial interpolation of degree ≥ 1
reproduces exactly. -/
def fiC : ℚ → ℚ := fun t => 160 - 20 * t

/-- Claim C9 (amended): on scenario C's series y = [100, 80, 60, 40, 20]
over x = [3, …, 7], the selector fails with the range-exhausted condition
*both* for percent = 10 (cutoff 10 lies below min y = 20, so the check
`min(y) > cutoff` fires — no interpolated crossing is returned) and for
percent = 200 (cutoff 0.5), as the claim correctly states for the latter. -/
theorem scenarioC_selector_fails :
    find_yintercept fiC [3, 4, 5, 6, 7] ([100, 80, 60, 40, 20] : List ℚ) 10 =
      .error .notImplemented ∧
    find_yintercept fiC [3, 4, 5, 6, 7] ([100, 80, 60, 40, 20] : List ℚ) 200 =
      .error .notImplemented := by
  have hmax : (([100, 80, 60, 40, 20] : List ℚ).max?.getD 0) = 100 := rfl
  have hmin : (([100, 80, 60, 40, 20] : List ℚ).min?.getD 0) = 20 := rfl
  constructor
  · simp only [find_yintercept]
    rw [if_pos (by rw [hmin, hmax]; norm_num)]
  · simp only [find_yintercept]
    rw [if_pos (by rw [hmin, hmax]; norm_num)]

/-- Claim C9 counterexample: with percent = 10 on scenario C's series the
selector does not return any x strictly between 6 and 7 — the range check
`min(y) = 20 > cutoff = 10` raises the not-yet-supported error first. -/
theorem scenarioC_claim_counterexample :
    ¬ ∃ v : ℚ,
      find_yintercept fiC [3, 4, 5, 6, 7] ([100, 80, 60, 40, 20] : List ℚ) 10 =
        .ok v ∧ 6 < v ∧ v < 7 := by
  intro hcl
  obtain ⟨v, hv, -, -⟩ := hcl
  have herr : find_yintercept fiC [3, 4, 5, 6, 7]
      ([100, 80, 60, 40, 20] : List ℚ) 10 = .error .notImplemented := by
    have hmax : (([100, 80, 60, 40, 20] : List ℚ).max?.getD 0) = 100 := rfl
    have hmin : (([100, 80, 60, 40, 20] : List ℚ).min?.getD 0) = 20 := rfl
    simp only [find_yintercept]
    rw [if_pos (by rw [hmin, hmax]; norm_num)]
  rw [herr] at hv
  exact Except.noConfusion hv

/-- The source definition of `_calculate_ocf` (fsig.py lines 355–368; the
definition is commented out in the file yet still invoked by
`calculate_ofc_kmer` at line 437, so it is embedded from that commented
text): `np.unique(spmatrix.indices, return_counts=True)` over the
concatenated row indices of the stacked matrix yields the distinct
observed keys (returned first, as "allPossible") and the number of keys
observed in exactly one row (returned second, as "numberOfUnique"). -/
def _calculate_ocf (spmatrix : List (List ℕ)) : ℕ × ℕ :=
  let indices := spmatrix.flatten
  let uniq := indices.dedup
  let allPossible := uniq.length
  let numberOfUnique := (uniq.filter (fun u => indices.count u == 1)).length
  (allPossible, numberOfUnique)

/-- fsig.py lines 435–444 of `calculate_ofc_kmer`: for each k in
range(start_k, stop_k + 1) rebuild the stacked matrix, compute
(allPossible, numberOfUnique), and derive
percentage = (1 − unique/observed-distinct)·100. -/
def ofc_percentage (stores : List Store) (start_k stop_k : ℕ) : List ℚ :=
  let ks := List.range' start_k (stop_k + 1 - start_k)
  let pairs := ks.map (fun ksize => _calculate_ocf (rebuild_sparse_matrix stores ksize))
  let allPossibleKmer := pairs.map Prod.fst
  let ocf := pairs.map Prod.snd
  List.zipWith (fun o a => (1 - (o : ℚ) / (a : ℚ)) * 100) ocf allPossibleKmer

/-- fsig.py line 447 of `calculate_ofc_kmer`:
`np.argwhere(np.diff(np.sign(percentage - cutoff)) < 0)[:,-1][-1] + start_k`
with cutoff = 80 — the last index whose consecutive signs strictly
decrease, plus start_k; `none` models the IndexError `[-1]` raises when no
such index exists. -/
def ofc_kmer_select (percentage : List ℚ) (start_k : ℕ) : Option ℕ :=
  let cutoff : ℚ := 80
  let s := percentage.map (fun p => npsign (p - cutoff))
  let d := List.zipWith (fun a b => b - a) s s.tail
  let idxs := (d.enum.filter (fun p => decide (p.2 < 0))).map Prod.fst
  idxs.getLast?.map (fun i => i + start_k)

/-- fsig.py lines 422–449, `calculate_ofc_kmer`: the per-k percentage
series paired with the recommended k selected from it. -/
def calculate_ofc_kmer (stores : List Store) (start_k stop_k : ℕ) :
    List ℚ × Option ℕ :=
  (ofc_percentage stores start_k stop_k,
   ofc_kmer_select (ofc_percentage stores start_k stop_k) start_k)

/-- The recommendation as claim C5 words it (for comparison with the
source's selector): the last index at which (percentage − 80) *changes
sign* — in either direction — plus start_k. -/
def ofc_kmer_claimed (stores : List Store) (start_k stop_k : ℕ) : Option ℕ :=
  let percentage := ofc_percentage stores start_k stop_k
  let s := percentage.map (fun p => npsign (p - 80))
  let d := List.zipWith (fun a b => b - a) s s.tail
  (((d.enum.filter (fun p => p.2 != 0)).map Prod.fst).getLast?).map
    (fun i => i + start_k)

/-- A concrete signature that shares its key with `storeA` at every order
except k = 4, where its single key is 1. -/
def storeD : Store := fun k => if k = 4 then [1] else [0]

/-- Claim C5 counterexample: on the two-genome collection
[storeA, storeD] over k ∈ [3, 5] the percentage series is [100, 0, 100],
whose sign pattern against 80 is [+, −, +].  The source selects the last
index with a *negative* sign difference (index 0, giving k = 3), while the
claim's "last index at which (percentage − 80) changes sign" is index 1
(the upward crossing), giving k = 4 — so the claim as stated does not
match the code. -/
theorem ofc_kmer_claim_counterexample :
    (calculate_ofc_kmer [storeA, storeD] 3 5).2 = some 3 ∧
    ofc_kmer_claimed [storeA, storeD] 3 5 = some 4 ∧ (3 : ℕ) ≠ 4 := by
  have h1 : _calculate_ocf (rebuild_sparse_matrix [storeA, storeD] 3) = (1, 0) := by decide
  have h2 : _calculate_ocf (rebuild_sparse_matrix [storeA, storeD] 4) = (2, 2) := by decide
  have h3 : _calculate_ocf (rebuild_sparse_matrix [storeA, storeD] 5) = (1, 0) := by decide
  have hp : ofc_percentage [storeA, storeD] 3 5 = [100, 0, 100] := by
    simp only [ofc_percentage, show List.range' 3 (5 + 1 - 3) = [3, 4, 5] from rfl,
      List.map_cons, List.map_nil, h1, h2, h3]
    norm_num
  have hs : ([100, 0, 100] : List ℚ).map (fun p => npsign (p - (80 : ℚ))) = [1, -1, 1] := by
    norm_num [npsign]
  refine ⟨?_, ?_, by decide⟩
  · have : (calculate_ofc_kmer [storeA, storeD] 3 5).2 =
        ofc_kmer_select (ofc_percentage [storeA, storeD] 3 5) 3 := rfl
    rw [this, hp]
    simp only [ofc_kmer_select, hs]
    rfl
  · simp only [ofc_kmer_claimed, hp, hs]
    rfl

theorem fst_ge_of_mem_enumFrom {β : Type} :
    ∀ (l : List β) (n : ℕ) (q : ℕ × β), q ∈ l.enumFrom n → n ≤ q.1 := by
  intro l
  induction l with
  | nil => intro n q hq; simp [List.enumFrom] at hq
  | cons a t ih =>
    intro n q hq
    rcases List.mem_cons.mp hq with h | h
    · subst h; exact le_refl n
    · exact Nat.le_of_succ_le (ih (n + 1) q h)

theorem pairwise_fst_filter_enumFrom {β : Type} (p : ℕ × β → Bool) :
    ∀ (l : List β) (n : ℕ),
      (((l.enumFrom n).filter p).map Prod.fst).Pairwise (· < ·) := by
  intro l
  induction l with
  | nil => intro n; simp [List.enumFrom]
  | cons a t ih =>
    intro n
    show ((List.filter p ((n, a) :: t.enumFrom (n + 1))).map Prod.fst).Pairwise (· < ·)
    rcases hpa : p (n, a) with _ | _
    · rw [List.filter_cons_of_neg (by simp [hpa])]
      exact ih (n + 1)
    · rw [List.filter_cons_of_pos (by simp [hpa])]
      rw [List.map_cons]
      refine List.Pairwise.cons ?_ (ih (n + 1))
      intro m hm
      obtain ⟨q, hq, rfl⟩ := List.mem_map.mp hm
      have := fst_ge_of_mem_enumFrom t (n + 1) q (List.mem_filter.mp hq).1
      omega

theorem mem_of_getLast? {β : Type} :
    ∀ (l : List β) (a : β), l.getLast? = some a → a ∈ l := by
  intro l
  induction l with
  | nil => intro a h; exact Option.noConfusion h
  | cons x t ih =>
    intro a h
    cases t with
    | nil =>
      simp only [List.getLast?_singleton, Option.some.injEq] at h
      simp [h]
    | cons y t' =>
      rw [List.getLast?_cons_cons] at h
      exact List.mem_cons.mpr (Or.inr (ih a h))

theorem getLast?_is_max :
    ∀ l : List ℕ, l.Pairwise (· < ·) → ∀ i : ℕ, l.getLast? = some i →
      ∀ j ∈ l, j ≤ i := by
  intro l
  induction l with
  | nil => intro _ i h; exact Option.noConfusion h
  | cons a t ih =>
    intro hp i h j hj
    cases t with
    | nil =>
      simp only [List.getLast?_singleton, Option.some.injEq] at h
      subst h
      rcases List.mem_cons.mp hj with rfl | hj'
      · exact le_refl j
      · exact absurd hj' (List.not_mem_nil j)
    | cons y t' =>
      rw [List.getLast?_cons_cons] at h
      have hi_mem : i ∈ y :: t' := mem_of_getLast? _ _ h
      rcases List.mem_cons.mp hj with rfl | hj'
      · exact le_of_lt ((List.pairwise_cons.mp hp).1 i hi_mem)
      · exact ih (List.pairwise_cons.mp hp).2 i h j hj'

theorem mem_fst_filter_enum_iff (p : ℤ → Bool) (d : List ℤ) (i : ℕ) :
    i ∈ ((d.enum.filter (fun q => p q.2)).map Prod.fst) ↔
      i < d.length ∧ p (d.getD i 0) = true := by
  constructor
  · intro h
    obtain ⟨⟨j, z⟩, hq, rfl⟩ := List.mem_map.mp h
    have hf := List.mem_filter.mp hq
    have hg := List.mem_enum_iff_getElem?.mp hf.1
    obtain ⟨hlt, hz⟩ := List.getElem?_eq_some.mp hg
    refine ⟨hlt, ?_⟩
    rw [List.getD_eq_getElem _ _ hlt, hz]
    simpa using hf.2
  · rintro ⟨hlt, hP⟩
    refine List.mem_map.mpr ⟨(i, d.getD i 0), List.mem_filter.mpr ⟨?_, by simpa using hP⟩, rfl⟩
    rw [List.mem_enum_iff_getElem?, List.getD_eq_getElem _ _ hlt]
    exact List.getElem?_eq_getElem hlt

/-- The property characterizing the source's recommendation: k − start_k
is an index of the sign-difference series of (percentage − 80) whose value
is negative (a downward crossing), and it is the *last* such index. -/
def isLastDowncross (percentage : List ℚ) (start_k k : ℕ) : Prop :=
  let s := percentage.map (fun p => npsign (p - 80))
  let d := List.zipWith (fun a b => b - a) s s.tail
  start_k ≤ k ∧ k - start_k < d.length ∧ d.getD (k - start_k) 0 < 0 ∧
    ∀ j, j < d.length → d.getD j 0 < 0 → j ≤ k - start_k

/-- Claim C5 (amended): `calculate_ofc_kmer` computes the per-k
percentages (1 − unique/observed-distinct)·100 and recommends, whenever it
returns a k at all, the k derived from the last index at which the sign of
(percentage − 80) strictly *decreases* — a downward crossing, not an
arbitrary sign change — plus start_k; that index is maximal among all
downward crossings (last-crossing semantics, never the first crossing when
several exist). -/
theorem ofc_kmer_last_downcross (stores : List Store) (start_k stop_k k : ℕ)
    (h : (calculate_ofc_kmer stores start_k stop_k).2 = some k) :
    isLastDowncross ((calculate_ofc_kmer stores start_k stop_k).1) start_k k := by
  simp only [calculate_ofc_kmer, ofc_kmer_select] at h
  simp only [calculate_ofc_kmer, isLastDowncross]
  obtain ⟨i, hi, rfl⟩ := Option.map_eq_some'.mp h
  have hmem := mem_of_getLast? _ _ hi
  have hiff := (mem_fst_filter_enum_iff (fun z => decide (z < 0)) _ i).mp hmem
  have hmax := getLast?_is_max _
    (pairwise_fst_filter_enumFrom (fun q : ℕ × ℤ => decide (q.2 < 0)) _ 0) i hi
  refine ⟨Nat.le_add_left _ _, ?_, ?_, ?_⟩
  · rw [Nat.add_sub_cancel]
    exact hiff.1
  · rw [Nat.add_sub_cancel]
    have := hiff.2
    simp only [decide_eq_true_eq] at this
    exact this
  · intro j hj hneg
    have hjm := (mem_fst_filter_enum_iff (fun z => decide (z < 0)) _ j).mpr
      ⟨hj, by simp only [decide_eq_true_eq]; exact hneg⟩
    have := hmax j hjm
    omega

/-- Claim C5 witness: the amended characterization applied to the concrete
collection [storeA, storeD] over k ∈ [3, 5], whose recommendation is k = 3
(the single downward crossing of [100, 0, 100] against 80). -/
theorem ofc_kmer_last_downcross_witness :
    (calculate_ofc_kmer [storeA, storeD] 3 5).2 = some 3 ∧
    isLastDowncross ((calculate_ofc_kmer [storeA, storeD] 3 5).1) 3 3 := by
  have h1 : _calculate_ocf (rebuild_sparse_matrix [storeA, storeD] 3) = (1, 0) := by decide
  have h2 : _calculate_ocf (rebuild_sparse_matrix [storeA, storeD] 4) = (2, 2) := by decide
  have h3 : _calculate_ocf (rebuild_sparse_matrix [storeA, storeD] 5) = (1, 0) := by decide
  have hp : ofc_percentage [storeA, storeD] 3 5 = [100, 0, 100] := by
    simp only [ofc_percentage, show List.range' 3 (5 + 1 - 3) = [3, 4, 5] from rfl,
      List.map_cons, List.map_nil, h1, h2, h3]
    norm_num
  have hs : ([100, 0, 100] : List ℚ).map (fun p => npsign (p - (80 : ℚ))) = [1, -1, 1] := by
    norm_num [npsign]
  have hsel : (calculate_ofc_kmer [storeA, storeD] 3 5).2 = some 3 := by
    have hrw : (calculate_ofc_kmer [storeA, storeD] 3 5).2 =
        ofc_kmer_select (ofc_percentage [storeA, storeD] 3 5) 3 := rfl
    rw [hrw, hp]
    simp only [ofc_kmer_select, hs]
    rfl
  exact ⟨hsel, ofc_kmer_last_downcross [storeA, storeD] 3 5 3 hsel⟩

/-- The factored relative-entropy formula of `_calculate_re_vectorize`
(fsig.py lines 183–192), over exact arithmetic: for each aligned quadruple
(A, F, B, M) the contribution is (A/norm0)·(L(A/(F·B/M)) + L(norm1²/(norm2·norm0))).
`L` is the log2 primitive (numpy's `np.log2`), an external numeric
collaborator the formula is parametric in; the claim ranges over exact/real
arithmetic, so only the algebraic law L(x·y) = L(x) + L(y) on positives is
assumed where needed. -/
def factored_re (L : ℚ → ℚ) (rows : List (ℚ × ℚ × ℚ × ℚ))
    (norm0 norm1 norm2 : ℚ) : ℚ :=
  (rows.map (fun r =>
    (r.1 / norm0) *
      (L (r.1 / (r.2.1 * r.2.2.1 / r.2.2.2)) + L (norm1 ^ 2 / (norm2 * norm0))))).sum

/-- The textbook per-symbol relative-entropy sum, as written in the
commented-out reference block of the source (fsig.py lines 194–201,
"Version which follow a formula as written in paper"): per k-mer,
(A/norm0)·L((A/norm0) / ((F/norm1)·(B/norm1)/(M/norm2))). -/
def textbook_re (L : ℚ → ℚ) (rows : List (ℚ × ℚ × ℚ × ℚ))
    (norm0 norm1 norm2 : ℚ) : ℚ :=
  (rows.map (fun r =>
    (r.1 / norm0) *
      L ((r.1 / norm0) /
        ((r.2.1 / norm1) * (r.2.2.1 / norm1) / (r.2.2.2 / norm2))))).sum

/-- Claim C6: for positive aligned counts A, F, B, M and positive
normalization sums, the factored relative-entropy formula implemented in
`_calculate_re_vectorize` is algebraically equal to the textbook
per-symbol relative-entropy sum — for every log2 function satisfying the
log-of-product law on positive arguments (hence for the real log2). -/
theorem factored_eq_textbook (L : ℚ → ℚ)
    (hL : ∀ x y : ℚ, 0 < x → 0 < y → L (x * y) = L x + L y)
    (rows : List (ℚ × ℚ × ℚ × ℚ)) (n0 n1 n2 : ℚ)
    (h0 : 0 < n0) (h1 : 0 < n1) (h2 : 0 < n2)
    (hrows : ∀ r ∈ rows, 0 < r.1 ∧ 0 < r.2.1 ∧ 0 < r.2.2.1 ∧ 0 < r.2.2.2) :
    factored_re L rows n0 n1 n2 = textbook_re L rows n0 n1 n2 := by
  unfold factored_re textbook_re
  congr 1
  apply List.map_congr_left
  intro r hr
  obtain ⟨ha, hf, hb, hm⟩ := hrows r hr
  obtain ⟨a, f, b, m⟩ := r
  simp only at ha hf hb hm ⊢
  have key : (a / n0) / ((f / n1) * (b / n1) / (m / n2)) =
      (a / (f * b / m)) * (n1 ^ 2 / (n2 * n0)) := by
    field_simp
    ring
  have hx : 0 < a / (f * b / m) := by positivity
  have hy : 0 < n1 ^ 2 / (n2 * n0) := by positivity
  rw [key, hL _ _ hx hy]

/-- Claim C6 witness: the identity applied to one uniform aligned quadruple
with unit norms and the zero function as log2 (which satisfies the
log-of-product law). -/
theorem factored_eq_textbook_witness :
    (0 : ℚ) < 1 ∧
      factored_re (fun _ => 0) [(1, 1, 1, 1)] 1 1 1 =
        textbook_re (fun _ => 0) [(1, 1, 1, 1)] 1 1 1 :=
  ⟨one_pos,
   factored_eq_textbook (fun _ => 0) (fun _ _ _ _ => by norm_num)
    [(1, 1, 1, 1)] 1 1 1 one_pos one_pos one_pos
    (by intro r hr; simp only [List.mem_singleton] at hr; subst hr; norm_num)⟩

/-- IEEE-754 double values as they arise in the numpy evaluation of the
relative-entropy formula: a finite value (kept exact as a rational — the
rounding of finite results is not modelled), one of the two infinities, or
NaN.  What the error-handling claim is about is exactly the
finite/non-finite classification of these special values. -/
inductive NpF where
  | fin (q : ℚ)
  | pinf
  | ninf
  | nan
deriving DecidableEq

namespace NpF

/-- np.isfinite. -/
def isFinite : NpF → Bool
  | fin _ => true
  | _ => false

/-- IEEE addition on specials: infinities absorb finite values, opposite
infinities give NaN, NaN propagates. -/
def add : NpF → NpF → NpF
  | nan, _ => nan
  | _, nan => nan
  | fin a, fin b => fin (a + b)
  | fin _, pinf => pinf
  | fin _, ninf => ninf
  | pinf, fin _ => pinf
  | ninf, fin _ => ninf
  | pinf, pinf => pinf
  | ninf, ninf => ninf
  | pinf, ninf => nan
  | ninf, pinf => nan

/-- IEEE multiplication on specials: 0·∞ = NaN, sign rules otherwise, NaN
propagates. -/
def mul : NpF → NpF → NpF
  | nan, _ => nan
  | _, nan => nan
  | fin a, fin b => fin (a * b)
  | fin a, pinf => if a = 0 then nan else if 0 < a then pinf else ninf
  | fin a, ninf => if a = 0 then nan else if 0 < a then ninf else pinf
  | pinf, fin b => if b = 0 then nan else if 0 < b then pinf else ninf
  | ninf, fin b => if b = 0 then nan else if 0 < b then ninf else pinf
  | pinf, pinf => pinf
  | pinf, ninf => ninf
  | ninf, pinf => ninf
  | ninf, ninf => pinf

/-- IEEE division on specials: x/±0 with x ≠ 0 gives a signed infinity
(numpy emits a RuntimeWarning, not an exception), 0/0 gives NaN, finite/∞
gives 0, ∞/∞ gives NaN, NaN propagates.  Zeros arising in this embedding
are positive zeros. -/
def div : NpF → NpF → NpF
  | nan, _ => nan
  | _, nan => nan
  | fin a, fin b =>
      if b = 0 then (if a = 0 then nan else if 0 < a then pinf else ninf)
      else fin (a / b)
  | fin _, pinf => fin 0
  | fin _, ninf => fin 0
  | pinf, fin b => if 0 ≤ b then pinf else ninf
  | ninf, fin b => if 0 ≤ b then ninf else pinf
  | pinf, pinf => nan
  | pinf, ninf => nan
  | ninf, pinf => nan
  | ninf, ninf => nan

/-- np.sum: left fold of IEEE addition from (positive) zero. -/
def sum (l : List NpF) : NpF := l.foldl add (fin 0)

end NpF

/-- The computational core of `_calculate_re_vectorize` (fsig.py lines
183–192), evaluated in IEEE special-value semantics: `rows` are the aligned
(A, F, B, M) quadruples produced by the searchsorted alignment (asserted
equal-length in the source); `data1` and `data2` are the full count arrays
of the order-(k−1)/(k−2) vectors, whose sums are norm1 and norm2 (norm0 is
the sum of the A column, which is the full `array0.data`); `L` stands for
numpy's `np.log2` primitive.  The codomain has no error case: the source
lines contain no check and raise nothing. -/
def re_vectorize_core (L : NpF → NpF) (rows : List (ℤ × ℤ × ℤ × ℤ))
    (data1 data2 : List ℤ) : NpF :=
  let norm0 : ℤ := (rows.map (fun r => r.1)).sum
  let norm1 : ℤ := data1.sum
  let norm2 : ℤ := data2.sum
  let normFactor := NpF.div (NpF.mul (.fin (norm1 : ℚ)) (.fin (norm1 : ℚ)))
    (NpF.mul (.fin (norm2 : ℚ)) (.fin (norm0 : ℚ)))
  NpF.sum (rows.map (fun r =>
    let expectation := NpF.div
      (NpF.mul (.fin (r.2.1 : ℚ)) (.fin (r.2.2.1 : ℚ))) (.fin (r.2.2.2 : ℚ))
    let rhs := NpF.add (L (NpF.div (.fin (r.1 : ℚ)) expectation)) (L normFactor)
    let lhs := NpF.div (.fin (r.1 : ℚ)) (.fin (norm0 : ℚ))
    NpF.mul lhs rhs))

/-- A concrete log2 stand-in with numpy's special-value behavior: finite
positive inputs give a finite value, log2(0) = −∞, negative inputs give
NaN, log2(∞) = ∞. -/
def L0 : NpF → NpF
  | .fin q => if 0 < q then .fin 0 else if q = 0 then .ninf else .nan
  | .pinf => .pinf
  | .ninf => .nan
  | .nan => .nan

/-- Claim C2 counterexample: on the aligned row (A, F, B, M) = (1, 1, 1, 0)
with unit norm data, the relative-entropy core does not fail with any
domain error — the embedded lines have no error outcome at all, mirroring
the absence of a check or raise in the source — and the scalar it returns
is non-finite (−∞): the zero middle count makes the expectation +∞, the
ratio 0, its log2 −∞, and the sum −∞. -/
theorem re_zero_middle_claim_counterexample :
    re_vectorize_core L0 [(1, 1, 1, 0)] [1] [1] = NpF.ninf ∧
      NpF.isFinite NpF.ninf = false := by
  constructor
  · norm_num [re_vectorize_core, NpF.sum, NpF.mul, NpF.div, NpF.add, L0]
  · rfl

theorem foldl_add_ninf (l : List NpF)
    (hfin : ∀ v ∈ l, (∃ q, v = .fin q) ∨ v = .ninf) :
    l.foldl NpF.add .ninf = .ninf := by
  induction l with
  | nil => rfl
  | cons x t ih =>
    rcases hfin x (by simp) with ⟨q, rfl⟩ | rfl
    · exact ih (fun v hv => hfin v (by simp [hv]))
    · exact ih (fun v hv => hfin v (by simp [hv]))

theorem foldl_add_fin (l : List NpF)
    (hfin : ∀ v ∈ l, (∃ q, v = .fin q) ∨ v = .ninf) (hmem : NpF.ninf ∈ l) :
    ∀ q : ℚ, l.foldl NpF.add (.fin q) = .ninf := by
  induction l with
  | nil => exact absurd hmem (List.not_mem_nil _)
  | cons x t ih =>
    intro q
    rcases hfin x (by simp) with ⟨q', rfl⟩ | rfl
    · have hmem' : NpF.ninf ∈ t := by
        rcases List.mem_cons.mp hmem with h | h
        · exact absurd h.symm (by simp)
        · exact h
      exact ih (fun v hv => hfin v (by simp [hv])) hmem' (q + q')
    · show List.foldl NpF.add NpF.ninf t = NpF.ninf
      exact foldl_add_ninf t (fun v hv => hfin v (by simp [hv]))

theorem sum_eq_ninf (l : List NpF)
    (hfin : ∀ v ∈ l, (∃ q, v = .fin q) ∨ v = .ninf) (hmem : NpF.ninf ∈ l) :
    NpF.sum l = .ninf :=
  foldl_add_fin l hfin hmem 0

theorem div_fin_fin_ne (a b : ℚ) (hb : b ≠ 0) :
    NpF.div (.fin a) (.fin b) = .fin (a / b) := by
  simp [NpF.div, hb]

theorem mul_fin_fin (a b : ℚ) : NpF.mul (.fin a) (.fin b) = .fin (a * b) := rfl

theorem term_ninf (L : NpF → NpF) (hL0 : L (.fin 0) = .ninf)
    (a f b n0 : ℚ) (F : NpF) (qF : ℚ) (hF : F = .fin qF)
    (ha : 0 < a) (hf : 0 < f) (hb : 0 < b) (hn0 : 0 < n0) :
    NpF.mul (NpF.div (.fin a) (.fin n0))
      (NpF.add (L (NpF.div (.fin a)
        (NpF.div (NpF.mul (.fin f) (.fin b)) (.fin 0)))) F) = .ninf := by
  have hfb : (0 : ℚ) < f * b := mul_pos hf hb
  have h2 : NpF.div (.fin (f * b)) (.fin 0) = .pinf := by
    simp [NpF.div, ne_of_gt hfb, hfb]
  rw [mul_fin_fin, h2]
  have h3 : NpF.div (.fin a) NpF.pinf = .fin 0 := rfl
  rw [h3, hL0, hF]
  show NpF.mul (NpF.div (.fin a) (.fin n0)) NpF.ninf = .ninf
  rw [div_fin_fin_ne _ _ (ne_of_gt hn0)]
  have hpos : 0 < a / n0 := div_pos ha hn0
  simp [NpF.mul, ne_of_gt hpos, hpos]

theorem term_fin (L : NpF → NpF)
    (hLpos : ∀ q : ℚ, 0 < q → ∃ r, L (.fin q) = .fin r)
    (a f b m n0 : ℚ) (F : NpF) (qF : ℚ) (hF : F = .fin qF)
    (ha : 0 < a) (hf : 0 < f) (hb : 0 < b) (hm : 0 < m) (hn0 : 0 < n0) :
    ∃ q, NpF.mul (NpF.div (.fin a) (.fin n0))
      (NpF.add (L (NpF.div (.fin a)
        (NpF.div (NpF.mul (.fin f) (.fin b)) (.fin m)))) F) = .fin q := by
  have hfbm : (0 : ℚ) < f * b / m := div_pos (mul_pos hf hb) hm
  rw [mul_fin_fin, div_fin_fin_ne _ _ (ne_of_gt hm),
    div_fin_fin_ne _ _ (ne_of_gt hfbm)]
  obtain ⟨r1, hr1⟩ := hLpos (a / (f * b / m)) (div_pos ha hfbm)
  rw [hr1, hF, div_fin_fin_ne _ _ (ne_of_gt hn0)]
  exact ⟨(a / n0) * (r1 + qF), rfl⟩

/-- Claim C2 (amended): in the relative-entropy computation, if any aligned
middle count M is zero (the other aligned counts being positive and the
normalization sums positive, as the sparse data guarantee), the computation
does *not* fail with a domain error — the source lines perform no check and
raise nothing — and the scalar it returns is the non-finite value −∞,
silently propagated from the IEEE division by zero.  This holds for every
log2 primitive with numpy's special-value behavior (finite positive ↦
finite, 0 ↦ −∞). -/
theorem re_zero_middle_nonfinite (L : NpF → NpF)
    (hLpos : ∀ q : ℚ, 0 < q → ∃ r, L (.fin q) = .fin r)
    (hL0 : L (.fin 0) = .ninf)
    (rows : List (ℤ × ℤ × ℤ × ℤ)) (data1 data2 : List ℤ)
    (hrows : ∀ r ∈ rows, 0 < r.1 ∧ 0 < r.2.1 ∧ 0 < r.2.2.1 ∧ 0 ≤ r.2.2.2)
    (hz : ∃ r ∈ rows, r.2.2.2 = 0)
    (hd1 : 0 < data1.sum) (hd2 : 0 < data2.sum) :
    re_vectorize_core L rows data1 data2 = .ninf := by
  simp only [re_vectorize_core]
  have hrows_ne : rows ≠ [] := by
    obtain ⟨r, hr, -⟩ := hz
    exact List.ne_nil_of_mem hr
  have hn0 : 0 < (rows.map (fun r => r.1)).sum := by
    apply List.sum_pos
    · intro x hx
      obtain ⟨r, hr, rfl⟩ := List.mem_map.mp hx
      exact (hrows r hr).1
    · simpa using hrows_ne
  have hn0q : (0 : ℚ) < (((rows.map (fun r => r.1)).sum : ℤ) : ℚ) := by
    exact_mod_cast hn0
  have hn1q : (0 : ℚ) < ((data1.sum : ℤ) : ℚ) := by exact_mod_cast hd1
  have hn2q : (0 : ℚ) < ((data2.sum : ℤ) : ℚ) := by exact_mod_cast hd2
  have hqF : NpF.div
      (NpF.mul (.fin ((data1.sum : ℤ) : ℚ)) (.fin ((data1.sum : ℤ) : ℚ)))
      (NpF.mul (.fin ((data2.sum : ℤ) : ℚ))
        (.fin (((rows.map (fun r => r.1)).sum : ℤ) : ℚ))) =
      .fin ((((data1.sum : ℤ) : ℚ) * ((data1.sum : ℤ) : ℚ)) /
        (((data2.sum : ℤ) : ℚ) * (((rows.map (fun r => r.1)).sum : ℤ) : ℚ))) := by
    rw [mul_fin_fin, mul_fin_fin,
      div_fin_fin_ne _ _ (ne_of_gt (mul_pos hn2q hn0q))]
  have hqFpos : (0 : ℚ) < (((data1.sum : ℤ) : ℚ) * ((data1.sum : ℤ) : ℚ)) /
      (((data2.sum : ℤ) : ℚ) * (((rows.map (fun r => r.1)).sum : ℤ) : ℚ)) :=
    div_pos (mul_pos hn1q hn1q) (mul_pos hn2q hn0q)
  obtain ⟨rF, hLNF⟩ : ∃ rF, L (NpF.div
      (NpF.mul (.fin ((data1.sum : ℤ) : ℚ)) (.fin ((data1.sum : ℤ) : ℚ)))
      (NpF.mul (.fin ((data2.sum : ℤ) : ℚ))
        (.fin (((rows.map (fun r => r.1)).sum : ℤ) : ℚ)))) = .fin rF := by
    rw [hqF]
    exact hLpos _ hqFpos
  apply sum_eq_ninf
  · intro v hv
    obtain ⟨r, hr, rfl⟩ := List.mem_map.mp hv
    obtain ⟨ha, hf, hb, hm⟩ := hrows r hr
    have haq : (0 : ℚ) < (r.1 : ℚ) := by exact_mod_cast ha
    have hfq : (0 : ℚ) < (r.2.1 : ℚ) := by exact_mod_cast hf
    have hbq : (0 : ℚ) < (r.2.2.1 : ℚ) := by exact_mod_cast hb
    rcases eq_or_lt_of_le hm with hm0 | hmpos
    · right
      rw [← hm0, Int.cast_zero]
      exact term_ninf L hL0 _ _ _ _ _ _ hLNF haq hfq hbq hn0q
    · left
      have hmq : (0 : ℚ) < (r.2.2.2 : ℚ) := by exact_mod_cast hmpos
      exact term_fin L hLpos _ _ _ _ _ _ _ hLNF haq hfq hbq hmq hn0q
  · obtain ⟨r, hr, hm0⟩ := hz
    refine List.mem_map.mpr ⟨r, hr, ?_⟩
    obtain ⟨ha, hf, hb, -⟩ := hrows r hr
    have haq : (0 : ℚ) < (r.1 : ℚ) := by exact_mod_cast ha
    have hfq : (0 : ℚ) < (r.2.1 : ℚ) := by exact_mod_cast hf
    have hbq : (0 : ℚ) < (r.2.2.1 : ℚ) := by exact_mod_cast hb
    rw [hm0, Int.cast_zero]
    exact term_ninf L hL0 _ _ _ _ _ _ hLNF haq hfq hbq hn0q

/-- Claim C2 witness: the amended non-finiteness result applied to the
aligned row (1, 1, 1, 0) with unit norm data and the concrete log2
stand-in. -/
theorem re_zero_middle_nonfinite_witness :
    (0 : ℤ) < ([1] : List ℤ).sum ∧
      re_vectorize_core L0 [(1, 1, 1, 0)] [1] [1] = NpF.ninf :=
  ⟨by decide,
   re_zero_middle_nonfinite L0
    (fun q hq => ⟨0, by simp [L0, hq]⟩)
    (by simp [L0])
    [(1, 1, 1, 0)] [1] [1]
    (by intro r hr; simp only [List.mem_singleton] at hr; subst hr; norm_num)
    ⟨(1, 1, 1, 0), by simp, rfl⟩
    (by decide) (by decide)⟩

end Ksiga
